import Mathlib

/-!
# Verification of the YAML key search / replace engine

A shallow embedding of the core of the `yaml-key-search` extension
(`extension.js`): the path extractor (`extractKeyPaths`), the
multi-document searcher (`searchKeyInFile`), the result sorter
(`searchYamlKey`) and the rewrite engine (`replaceInFile`), together
with theorems settling the specification claims about them.

JavaScript strings are modelled as Lean `String`, JS arrays as `List`,
parsed YAML values as the inductive `YVal` (JS objects are key-ordered,
so a mapping is a list of key/value pairs; a JS array enumerates to
string indices "0", "1", ... under `Object.keys`).  File I/O is made
explicit: `replaceInFile` returns the change count together with
`Option String`, where `none` models "no write performed".
-/

/-! ## Basic character and string utilities (JS built-ins) -/

/-- JS `\s` / whitespace as used by `trim`, `split` and the regexes
(ASCII part; all inputs considered here are ASCII). -/
def isJsWs (c : Char) : Bool :=
  c = ' ' || c = '\t' || c = '\n' || c = '\r' || c = '\x0b' || c = '\x0c'

/-- JS `String.prototype.trim`. -/
def jsTrim (s : String) : String :=
  String.mk (((s.data.dropWhile isJsWs).reverse.dropWhile isJsWs).reverse)

/-- `needle` occurs in `hay` as a contiguous sublist. -/
def isInfixOfL (needle : List Char) : List Char → Bool
  | [] => needle.isPrefixOf []
  | c :: t => needle.isPrefixOf (c :: t) || isInfixOfL needle t

/-- JS `a.includes(b)`: `b` occurs in `a` as a substring. -/
def containsSubstr (a b : String) : Bool :=
  isInfixOfL b.data a.data

/-- JS `s.startsWith(pat)`. -/
def startsWithL (s pat : String) : Bool :=
  pat.data.isPrefixOf s.data

/-- JS `s.endsWith(pat)`. -/
def endsWithL (s pat : String) : Bool :=
  pat.data.isSuffixOf s.data

/-- JS `s.includes(c)` for a single character. -/
def containsChar (s : String) (c : Char) : Bool :=
  s.data.contains c

/-- JS `s.replace(/c/g, rep)` for a single-character pattern. -/
def jsReplaceChar (s : String) (c : Char) (rep : String) : String :=
  String.mk (s.data.flatMap fun x => if x = c then rep.data else [x])

/-- JS `s.toLowerCase()` (ASCII part). -/
def jsToLower (s : String) : String :=
  String.mk (s.data.map Char.toLower)

/-- `content.split('\n')` on character lists. -/
def splitLinesData : List Char → List (List Char)
  | [] => [[]]
  | c :: rest =>
    if c = '\n' then [] :: splitLinesData rest
    else
      match splitLinesData rest with
      | [] => [[c]]
      | l :: ls => (c :: l) :: ls

/-- `lines.join('\n')` on character lists. -/
def joinLinesData : List (List Char) → List Char
  | [] => []
  | [l] => l
  | l :: ls => l ++ '\n' :: joinLinesData ls

/-- JS `content.split('\n')`. -/
def splitLines (s : String) : List String :=
  (splitLinesData s.data).map String.mk

/-- JS `lines.join('\n')`. -/
def joinLines (ls : List String) : String :=
  String.mk (joinLinesData (ls.map String.data))

/-! ## JS numeric coercion: `isNaN(string)`

`isNaN(s)` coerces `s` with `Number(s)`: whitespace is trimmed; the
empty remainder is `0`; otherwise the remainder must be an `Infinity`
form, a `0x`/`0o`/`0b` radix literal, or a signed decimal literal. -/

def isHexDigit (c : Char) : Bool :=
  c.isDigit || ('a' ≤ c && c ≤ 'f') || ('A' ≤ c && c ≤ 'F')

def isOctDigit (c : Char) : Bool := '0' ≤ c && c ≤ '7'

def isBinDigit (c : Char) : Bool := c = '0' || c = '1'

/-- Exponent part of a JS decimal literal: `[+-]? digits`, consuming
the whole remaining input. -/
def jsExpDigits (cs : List Char) : Bool :=
  let cs := match cs with
    | '+' :: rest => rest
    | '-' :: rest => rest
    | cs => cs
  !cs.isEmpty && cs.all Char.isDigit

/-- Unsigned JS decimal literal: `digits [. digits?] [e digits]` or
`. digits [e digits]`, consuming the whole input. -/
def jsUnsignedDecimal (cs : List Char) : Bool :=
  let intPart := cs.takeWhile Char.isDigit
  let rest := cs.drop intPart.length
  match rest with
  | [] => !intPart.isEmpty
  | '.' :: r2 =>
    let frac := r2.takeWhile Char.isDigit
    let r3 := r2.drop frac.length
    (!intPart.isEmpty || !frac.isEmpty) &&
      (r3.isEmpty || (match r3 with
        | 'e' :: r4 => jsExpDigits r4
        | 'E' :: r4 => jsExpDigits r4
        | _ => false))
  | 'e' :: r2 => !intPart.isEmpty && jsExpDigits r2
  | 'E' :: r2 => !intPart.isEmpty && jsExpDigits r2
  | _ => false

/-- JS `isNaN(s)` for a string argument. -/
def jsStrIsNaN (s : String) : Bool :=
  let t := jsTrim s
  if t = "" then false
  else if t = "Infinity" || t = "+Infinity" || t = "-Infinity" then false
  else
    match t.data with
    | '0' :: 'x' :: rest => !(!rest.isEmpty && rest.all isHexDigit)
    | '0' :: 'X' :: rest => !(!rest.isEmpty && rest.all isHexDigit)
    | '0' :: 'o' :: rest => !(!rest.isEmpty && rest.all isOctDigit)
    | '0' :: 'O' :: rest => !(!rest.isEmpty && rest.all isOctDigit)
    | '0' :: 'b' :: rest => !(!rest.isEmpty && rest.all isBinDigit)
    | '0' :: 'B' :: rest => !(!rest.isEmpty && rest.all isBinDigit)
    | '+' :: rest => !jsUnsignedDecimal rest
    | '-' :: rest => !jsUnsignedDecimal rest
    | cs => !jsUnsignedDecimal cs

/-! ## Parsed YAML values -/

/-- A parsed YAML document as the `yaml` library hands it to the JS
code: scalars (string / integer / boolean / null), sequences (JS
arrays) and mappings (JS objects, in key order). -/
inductive YVal where
  | str (s : String)
  | num (n : Int)
  | bool (b : Bool)
  | nullv
  | arr (xs : List YVal)
  | map (es : List (String × YVal))

/-- JS `typeof v === 'object' && v !== null`. -/
def isObjNode : YVal → Bool
  | .arr _ => true
  | .map _ => true
  | _ => false

/-- JS truthiness of a parsed document (the `if (parsed)` guard). -/
def isTruthy : YVal → Bool
  | .str s => s ≠ ""
  | .num n => n ≠ 0
  | .bool b => b
  | .nullv => false
  | .arr _ => true
  | .map _ => true

/-- `Object.keys` enumeration of a JS array: indices as strings,
paired with the elements. -/
def enumStr (i : Nat) : List YVal → List (String × YVal)
  | [] => []
  | v :: rest => (toString i, v) :: enumStr (i + 1) rest

/-- `Object.keys(obj)` paired with the values: mapping entries in key
order, array elements under their stringified indices, nothing for
scalars/null. -/
def childEntries : YVal → List (String × YVal)
  | .map es => es
  | .arr xs => enumStr 0 xs
  | _ => []

/-! ## Path extractor (`extractKeyPaths`) -/

/-- One record pushed by `extractKeyPaths`:
`{path, line, column, value, key}` (1-based line/column, `-1` when the
key could not be located in the source lines). -/
structure KeyPathRecord where
  path : String
  line : Int
  column : Int
  value : YVal
  key : String

/-- An ECMAScript regex syntax character.  `extractKeyPaths` builds
`new RegExp` with the key interpolated unescaped, so only keys free of
these characters reach the engine as a literal (and always valid)
pattern. -/
def regexSpecialChar (c : Char) : Bool :=
  c = '\\' || c = '^' || c = '$' || c = '.' || c = '*' || c = '+' ||
  c = '?' || c = '(' || c = ')' || c = '[' || c = ']' || c = '\x7b' ||
  c = '\x7d' || c = '|'

/-- A key whose unescaped interpolation into `^\s*${key}\s*:` yields a
valid pattern that matches the key literally and whose first character
is not whitespace (so the greedy `\s*` prefix consumes exactly the
line's leading whitespace).  For keys outside this class the program
diverges from the literal-scan model below: a regex-invalid key such
as `a(` makes `new RegExp` throw, the exception escapes
`extractKeyPaths` and is swallowed by `searchKeyInFile`'s catch, so
the whole segment yields no records; a regex-valid metacharacter key
such as `a.b` scans non-literally (it would match a line `axb:`).
The extraction theorems below therefore carry this predicate as a
hypothesis over all keys of the document. -/
def regexLiteralKey (k : String) : Bool :=
  (match k.data with
   | [] => true
   | c :: _ => !isJsWs c) &&
  k.data.all fun c => !regexSpecialChar c

/-- The line-finder regex `^\s*KEY\s*:` applied to one line: optional
leading whitespace, the literal key, optional whitespace, then a
colon.  This embeds the regex exactly for `regexLiteralKey` keys; the
pattern constrains nothing after the colon, so line terminators in the
rest of the line are irrelevant here. -/
def lineKeyMatch (key line : String) : Bool :=
  let r1 := line.data.dropWhile isJsWs
  key.data.isPrefixOf r1 &&
    ((r1.drop key.data.length).dropWhile isJsWs).head? = some ':'

/-- The per-key location scan of `extractKeyPaths`: the first line
matching `^\s*KEY\s*:` wins; the recorded column is `match.index + 1`,
and since the pattern is anchored at the line start a successful
`exec` always has `match.index = 0`, so the column is `1`.  `(-1, -1)`
when no line matches.  Faithful for `regexLiteralKey` keys; for other
keys the program may throw at `new RegExp` (aborting the whole
segment's extraction) or match non-literally — paths scoped to that
class carry the hypothesis explicitly. -/
def findKeyLoc (key : String) (lines : List String) : Int × Int :=
  go lines 0
where
  go : List String → Nat → Int × Int
  | [], _ => (-1, -1)
  | l :: rest, i =>
    if lineKeyMatch key l then ((i : Int) + 1, 0 + 1) else go rest (i + 1)

mutual

/-- `extractKeyPaths(obj, prefix, paths, lines)`: walks every node for
which `typeof obj === 'object' && obj !== null` holds — mappings *and*
arrays (`Object.keys` of an array yields its stringified indices) —
pushing one record per key and recursing into object-valued entries. -/
def extractKeyPaths (obj : YVal) (pfx : String) (paths : List KeyPathRecord)
    (lines : List String) : List KeyPathRecord :=
  match obj with
  | .map es => extractEntries es pfx paths lines
  | .arr xs => extractElems xs 0 pfx paths lines
  | _ => paths

/-- The `Object.keys(obj).forEach` body of `extractKeyPaths` for a
mapping node. -/
def extractEntries (es : List (String × YVal)) (pfx : String)
    (paths : List KeyPathRecord) (lines : List String) : List KeyPathRecord :=
  match es with
  | [] => paths
  | (k, v) :: rest =>
    let currentPath := if pfx = "" then k else pfx ++ "." ++ k
    let loc := findKeyLoc k lines
    let paths1 := paths ++ [⟨currentPath, loc.1, loc.2, v, k⟩]
    let paths2 := if isObjNode v then extractKeyPaths v currentPath paths1 lines
                  else paths1
    extractEntries rest pfx paths2 lines

/-- The same loop body for an array node, whose `Object.keys` are the
stringified indices `"0"`, `"1"`, ... . -/
def extractElems (xs : List YVal) (i : Nat) (pfx : String)
    (paths : List KeyPathRecord) (lines : List String) : List KeyPathRecord :=
  match xs with
  | [] => paths
  | v :: rest =>
    let k := toString i
    let currentPath := if pfx = "" then k else pfx ++ "." ++ k
    let loc := findKeyLoc k lines
    let paths1 := paths ++ [⟨currentPath, loc.1, loc.2, v, k⟩]
    let paths2 := if isObjNode v then extractKeyPaths v currentPath paths1 lines
                  else paths1
    extractElems rest (i + 1) pfx paths2 lines

end

/-! ## Spec-side view of the extractor: node positions and dotted paths -/

/-- Join path segments with dots. -/
def joinDots : List String → String
  | [] => ""
  | [k] => k
  | k :: rest => k ++ "." ++ joinDots rest

/-- Join segments under an extraction prefix exactly as
`extractKeyPaths` builds `currentPath` step by step (an empty prefix
is falsy in JS, so it contributes nothing). -/
def joinUnder (pfx : String) : List String → String
  | [] => pfx
  | k :: pos => joinUnder (if pfx = "" then k else pfx ++ "." ++ k) pos

mutual

/-- All node positions of a parsed value, as segment lists: one for
every mapping key and every array index reachable through mapping and
array nodes, in extraction order. -/
def positionsV : YVal → List (List String)
  | .map es => positionsEntries es
  | .arr xs => positionsElems xs 0
  | _ => []

def positionsEntries : List (String × YVal) → List (List String)
  | [] => []
  | (k, v) :: rest =>
    ([k] :: (positionsV v).map (k :: ·)) ++ positionsEntries rest

def positionsElems : List YVal → Nat → List (List String)
  | [], _ => []
  | v :: rest, i =>
    ([toString i] :: (positionsV v).map (toString i :: ·)) ++
      positionsElems rest (i + 1)

end

/-- A string without a dot. -/
def dotFree (s : String) : Bool := !s.data.contains '.'

/-- Child-key names fit for unique paths: pairwise distinct, nonempty
and dot-free. -/
def namesOK (ns : List String) : Bool :=
  ns.Nodup && ns.all fun k => k ≠ "" && dotFree k

mutual

/-- Well-formedness of a parsed value for path uniqueness: at every
mapping/array node the child key list is duplicate-free and every key
is nonempty and dot-free.  (Keys of a JS object are always pairwise
distinct, and array indices `"0"`, `"1"`, ... always satisfy all three
conditions, so the only real restriction is on dots in and emptiness
of YAML mapping keys.) -/
def wfV : YVal → Bool
  | .map es => namesOK (es.map Prod.fst) && wfEntries es
  | .arr xs => namesOK ((enumStr 0 xs).map Prod.fst) && wfElems xs
  | _ => true

def wfEntries : List (String × YVal) → Bool
  | [] => true
  | (_, v) :: rest => wfV v && wfEntries rest

def wfElems : List YVal → Bool
  | [] => true
  | v :: rest => wfV v && wfElems rest

end

/-! ## Multi-document search (`searchKeyInFile`) -/

/-- One element of the search result list built in `searchKeyInFile`. -/
structure MatchResult where
  file : String
  path : String
  line : Int
  column : Int
  value : YVal
  key : String
  isExactMatch : Bool

/-- A match of the document separator regex `/^---\s*$/m` starting at
the current (line-start) position: three dashes, then greedy `\s*`
backtracking until `$` holds, i.e. until end of input or just before a
newline.  Returns the number of characters consumed. -/
def sepTail (rest : List Char) : Option Nat :=
  let run := rest.takeWhile isJsWs
  if (rest.drop run.length).isEmpty then some run.length
  else
    match (run.reverse.findIdx? (· = '\n')) with
    | some j => some (run.length - 1 - j)
    | none => none

def sepMatch : List Char → Option Nat
  | '-' :: '-' :: '-' :: rest => (sepTail rest).map (3 + ·)
  | _ => none

/-- JS `content.split(/^---\s*$/m)` – the scanner over the raw
character list.  `atStart` records whether the current position is at
the start of a line (where `^` can match).  The fuel argument (at
least the length of `cs` at the outer call) only makes the recursion
structural: every step consumes at least one character. -/
def splitDocsGo : (fuel : Nat) → (cs : List Char) → (cur : List Char) →
    (atStart : Bool) → List String
  | _, [], cur, _ => [String.mk cur.reverse]
  | 0, _ :: _, cur, _ => [String.mk cur.reverse]
  | fuel + 1, c :: rest, cur, atStart =>
    if atStart then
      match sepMatch (c :: rest) with
      | some n =>
        String.mk cur.reverse :: splitDocsGo fuel ((c :: rest).drop n) [] false
      | none => splitDocsGo fuel rest (c :: cur) (c = '\n')
    else splitDocsGo fuel rest (c :: cur) (c = '\n')

/-- JS `content.split(/^---\s*$/m)`. -/
def splitDocs (content : String) : List String :=
  splitDocsGo content.data.length content.data [] true

/-- The match-building step of `searchKeyInFile` for one successfully
parsed document: keep every key path that equals the query or contains
it as a substring, adding the running document start line to the
extractor's document-local line. -/
def docMatches (file q : String) (parsed : YVal) (docLines : List String)
    (offset : Nat) : List MatchResult :=
  (extractKeyPaths parsed "" [] docLines).filterMap fun kp =>
    if kp.path = q || containsSubstr kp.path q then
      some ⟨file, kp.path, kp.line + (offset : Int), kp.column, kp.value,
            kp.key, kp.path = q⟩
    else none

/-- The document loop of `searchKeyInFile`: empty (whitespace-only)
segments advance the offset by their line count; other segments are
parsed (a parse failure only skips the segment) and searched, and then
advance the offset by their line count plus one for the separator. -/
def docLoop (parse : String → Option YVal) (file q : String) :
    List String → Nat → List MatchResult → List MatchResult
  | [], _, acc => acc
  | doc :: rest, offset, acc =>
    let docContent := jsTrim doc
    if docContent = "" then
      docLoop parse file q rest (offset + (splitLines doc).length) acc
    else
      let acc1 :=
        match parse docContent with
        | none => acc
        | some parsed =>
          if isTruthy parsed then
            acc ++ docMatches file q parsed (splitLines docContent) offset
          else acc
      docLoop parse file q rest (offset + (splitLines doc).length + 1) acc1

/-- `searchKeyInFile(filePath, searchKey)` over an explicit file
content and an explicit YAML parser for the document segments. -/
def searchKeyInFile (parse : String → Option YVal) (file content q : String) :
    List MatchResult :=
  docLoop parse file q (splitDocs content) 0 []

/-! ## A model of the external `yaml` parser

The repository delegates parsing to the third-party `yaml` package.
For the concrete evaluations below we model its behaviour on simple
block-style mappings: lines of `key: value` with two-space nesting,
keys optionally quoted, scalar values as plain/quoted strings, decimal
integers, booleans and null. -/

/-- Strip one pair of matching single or double quotes. -/
def stripQuotes (s : String) : String :=
  if s.data.length ≥ 2 &&
      ((startsWithL s "'" && endsWithL s "'") ||
       (startsWithL s "\"" && endsWithL s "\"")) then
    String.mk (s.data.drop 1 |>.dropLast)
  else s

/-- Decimal digits to a natural number. -/
def digitsToNat (cs : List Char) : Nat :=
  cs.foldl (fun a c => a * 10 + (c.toNat - 48)) 0

/-- Parse a scalar value token the way the `yaml` library reads block
scalars. -/
def parseScalarVal (t : String) : YVal :=
  if (startsWithL t "'" && endsWithL t "'" && t.data.length ≥ 2) ||
     (startsWithL t "\"" && endsWithL t "\"" && t.data.length ≥ 2) then
    .str (stripQuotes t)
  else if t = "true" then .bool true
  else if t = "false" then .bool false
  else if t = "null" || t = "~" then .nullv
  else if !t.data.isEmpty && t.data.all Char.isDigit then
    .num (digitsToNat t.data)
  else if startsWithL t "-" && t.data.length ≥ 2 &&
      (t.data.drop 1).all Char.isDigit then
    .num (-(digitsToNat (t.data.drop 1) : Int))
  else .str t

/-- One pre-processed line of a block mapping document: indentation
width, unquoted key, trimmed raw value text. -/
structure PLine where
  indent : Nat
  key : String
  val : String

/-- Cut a document line at its first colon. -/
def toPLine (l : String) : Option PLine :=
  let ind := (l.data.takeWhile (· = ' ')).length
  let rest := l.data.drop ind
  let k := rest.takeWhile (· ≠ ':')
  if (rest.drop k.length).head? = some ':' then
    some ⟨ind, stripQuotes (jsTrim (String.mk k)),
          jsTrim (String.mk (rest.drop (k.length + 1)))⟩
  else none

/-- Parse consecutive lines at one indentation level into mapping
entries; returns the entries and the unconsumed lines. -/
def parseLevel : Nat → List PLine → Nat → List (String × YVal) × List PLine
  | 0, pls, _ => ([], pls)
  | _ + 1, [], _ => ([], [])
  | fuel + 1, pl :: rest, ind =>
    if pl.indent ≠ ind then ([], pl :: rest)
    else if pl.val = "" then
      match rest with
      | pl2 :: _ =>
        if pl2.indent > ind then
          let sub := parseLevel fuel rest pl2.indent
          let sibs := parseLevel fuel sub.2 ind
          ((pl.key, .map sub.1) :: sibs.1, sibs.2)
        else
          let sibs := parseLevel fuel rest ind
          ((pl.key, .nullv) :: sibs.1, sibs.2)
      | [] => ([(pl.key, .nullv)], [])
    else
      let sibs := parseLevel fuel rest ind
      ((pl.key, parseScalarVal pl.val) :: sibs.1, sibs.2)

/-- Model of `yaml.parse` on simple block-style mapping documents
(`none` models a parse error). -/
def parseSimpleYaml (s : String) : Option YVal :=
  match (splitLines s).mapM toPLine with
  | none => none
  | some [] => none
  | some (pl :: pls) =>
    let r := parseLevel ((pl :: pls).length + 1) (pl :: pls) pl.indent
    if r.2.isEmpty then some (.map r.1) else none

/-! ## Result ordering (`searchYamlKey`) -/

/-- The JS sort comparator
`(a, b) => a.isExactMatch && !b.isExactMatch ? -1 : (!a.isExactMatch
&& b.isExactMatch ? 1 : a.file.localeCompare(b.file))`, as the
"comparator ≤ 0" Boolean relation fed to a stable sort.
`localeCompare` is modelled as code-point comparison, with which it
agrees on the ASCII file paths considered here. -/
def resultLE (a b : MatchResult) : Bool :=
  if a.isExactMatch && !b.isExactMatch then true
  else if !a.isExactMatch && b.isExactMatch then false
  else a.file ≤ b.file

/-- JS `allResults.sort(comparator)`: `Array.prototype.sort` is
specified stable, and for a consistent comparator every stable sort
produces the same list, so it is modelled by a stable insertion
sort. -/
def sortResults (rs : List MatchResult) : List MatchResult :=
  rs.insertionSort fun a b => resultLE a b = true

/-- The concatenation of per-file results of `searchYamlKey`, before
sorting, over an explicit list of (path, content) files. -/
def allResults (parse : String → Option YVal)
    (files : List (String × String)) (q : String) : List MatchResult :=
  files.flatMap fun fc => searchKeyInFile parse fc.1 fc.2 q

/-- `searchYamlKey`: search every file, then sort — exact matches
first, then by file name. -/
def searchYamlKey (parse : String → Option YVal)
    (files : List (String × String)) (q : String) : List MatchResult :=
  sortResults (allResults parse files q)

/-! ## Rewrite engine (`replaceInFile`)

Unlike the extractor, `replaceInFile` regex-escapes the key
(`escapeRegExp`), so every key reaches its three patterns as a
literal; the embeddings below assume only that the key is nonempty
(guarded before the patterns run) and does not start with whitespace.
JS `.` does not match line terminators and the non-multiline `$` only
matches at the end of the input, so a line whose remainder after the
colon's whitespace contains a carriage return (e.g. any line of a CRLF
file) matches no pattern; the embeddings check this.  The matched
pattern always spans the whole line (`^...$`), and the rebuilt line is
`line.replace(pattern, "$1 " + formatted)` with full JS
`$`-substitution over the replacement template — including `$`
sequences inside the formatted value (`jsDollar` below). -/

def sqChar : Char := "'".front

def dqChar : Char := "\"".front

/-- Pattern 1: `^(\s*KEY\s*:)\s*(.*)$` — returns (group1, group2).
The `\s*` runs may cross a `\r` but `(.*)$` cannot, so group 2 (the
remainder after the colon's whitespace) must be terminator-free or the
pattern fails. -/
def matchP1 (key line : String) : Option (String × String) :=
  let lead := line.data.takeWhile isJsWs
  let r1 := line.data.drop lead.length
  if key.data.isPrefixOf r1 then
    let r2 := r1.drop key.data.length
    let mid := r2.takeWhile isJsWs
    match r2.drop mid.length with
    | ':' :: tail =>
      let g2 := tail.dropWhile isJsWs
      if g2.contains '\r' then none
      else
        some (String.mk (lead ++ key.data ++ mid ++ [':']), String.mk g2)
    | _ => none
  else none

/-- Tail of pattern 2 after the (possibly quoted) key: `\s*:` closes
group 1, then `\s*(.*)$` is group 2, which cannot contain a line
terminator. -/
def p2Finish (lead pre rest : List Char) : Option (String × String) :=
  let mid := rest.takeWhile isJsWs
  match rest.drop mid.length with
  | ':' :: tail =>
    let g2 := tail.dropWhile isJsWs
    if g2.contains '\r' then none
    else some (String.mk (lead ++ pre ++ mid ++ [':']), String.mk g2)
  | _ => none

/-- Optional closing quote of pattern 2, greedy with backtracking. -/
def p2AfterKey (lead pre r2 : List Char) : Option (String × String) :=
  match r2 with
  | c :: tail =>
    if c = sqChar || c = dqChar then
      match p2Finish lead (pre ++ [c]) tail with
      | some g => some g
      | none => p2Finish lead pre r2
    else p2Finish lead pre r2
  | [] => p2Finish lead pre []

/-- Pattern 2: `^(\s*['"']?KEY['"']?\s*:)\s*(.*)$` (the character
class holds a single and a double quote); the optional quotes are
greedy with backtracking. -/
def matchP2 (key line : String) : Option (String × String) :=
  let lead := line.data.takeWhile isJsWs
  let r1 := line.data.drop lead.length
  let tryAt : List Char → List Char → Option (String × String) :=
    fun openQ r =>
      if key.data.isPrefixOf r then
        p2AfterKey lead (openQ ++ key.data) (r.drop key.data.length)
      else none
  match r1 with
  | c :: tail =>
    if c = sqChar || c = dqChar then
      match tryAt [c] tail with
      | some g => some g
      | none => tryAt [] r1
    else tryAt [] r1
  | [] => tryAt [] []

/-- Pattern 3: `^(\s*.*KEY.*\s*:)\s*(.*)$`.  JS `.` cannot cross a
carriage return while `\s` can, so with greedy backtracking the
engine settles on the latest key occurrence reachable from the leading
whitespace run without a `\r` in between (`preOk`), and then on the
last colon after that occurrence such that every `\r` between key and
colon lies in the whitespace run just before the colon (`midOk`) and
the remainder after the colon's whitespace is terminator-free
(`tailOk`).  Group 1 is everything up to that colon, group 2 the
remainder after its whitespace.  On `\r`-free lines this is simply
the last colon having the key somewhere before it. -/
def matchP3 (key line : String) : Option (String × String) :=
  let cs := line.data
  let klen := key.data.length
  let s1len := (cs.takeWhile isJsWs).length
  let preOk : Nat → Bool := fun p =>
    !((cs.take p).drop (min s1len p)).contains '\r'
  let midOk : Nat → Nat → Bool := fun p c =>
    let t := (cs.take c).drop (p + klen)
    let wsSuf := (t.reverse.takeWhile isJsWs).length
    !(t.take (t.length - wsSuf)).contains '\r'
  let tailOk : Nat → Bool := fun c =>
    !((cs.drop (c + 1)).dropWhile isJsWs).contains '\r'
  let colons := ((List.range cs.length).filter fun c =>
    cs.getD c ' ' = ':').reverse
  let occs := ((List.range (cs.length + 1)).filter fun p =>
    key.data.isPrefixOf (cs.drop p)).reverse
  occs.findSome? fun p =>
    if preOk p then
      colons.findSome? fun c =>
        if p + klen ≤ c && midOk p c && tailOk c then
          some (String.mk (cs.take (c + 1)),
                String.mk ((cs.drop (c + 1)).dropWhile isJsWs))
        else none
    else none

/-- The three progressively looser patterns of `replaceInFile`; the
first that matches wins. -/
def tryPatterns (key line : String) : Option (String × String) :=
  match matchP1 key line with
  | some g => some g
  | none =>
    match matchP2 key line with
    | some g => some g
    | none => matchP3 key line

/-- The value-formatting rule of `replaceInFile` (step 4.4.4): infer
the original captured value's lexical form and format the new value
accordingly. -/
def formatNewValue (originalValue newValue : String) : String :=
  if startsWithL originalValue "'" && endsWithL originalValue "'" then
    "'" ++ jsReplaceChar newValue sqChar "''" ++ "'"
  else if startsWithL originalValue "\"" && endsWithL originalValue "\"" then
    "\"" ++ jsReplaceChar newValue dqChar "\\\"" ++ "\""
  else if originalValue = "true" || originalValue = "false" then
    if (["true", "yes", "1"] : List String).contains (jsToLower newValue) then
      "true"
    else "false"
  else if !jsStrIsNaN originalValue && !jsStrIsNaN newValue then newValue
  else if containsChar newValue ' ' || containsChar newValue ':' ||
      containsChar newValue '#' || containsChar newValue '\n' then
    "'" ++ jsReplaceChar newValue sqChar "''" ++ "'"
  else newValue

def btChar : Char := "`".front

/-- JS `GetSubstitution` applied to the replacement template of
`line.replace(pattern, "$1 " + formatted)`: `$$` is a literal dollar,
`$&` the whole match, a dollar followed by a backquote or a quote the
text before/after the match (both empty here — every pattern is
anchored to span the whole line), and `$n`/`$nn` a capture group when
the index is valid (two digits preferred), literal text otherwise.
The dollar sequences swept up here include any occurring inside the
formatted value itself, which is how values containing `$1`, `$&`
etc. are corrupted by the engine. -/
def jsDollarGo (groups : List String) (whole : String) :
    Nat → List Char → List Char
  | _, [] => []
  | 0, cs => cs
  | fuel + 1, '$' :: rest =>
    match rest with
    | [] => ['$']
    | d :: r2 =>
      if d = '$' then '$' :: jsDollarGo groups whole fuel r2
      else if d = '&' then whole.data ++ jsDollarGo groups whole fuel r2
      else if d = btChar || d = sqChar then jsDollarGo groups whole fuel r2
      else if d.isDigit then
        let n1 := d.toNat - 48
        match r2 with
        | e :: r3 =>
          if e.isDigit then
            let nn := n1 * 10 + (e.toNat - 48)
            if 1 ≤ nn && nn ≤ groups.length then
              (groups.getD (nn - 1) "").data ++ jsDollarGo groups whole fuel r3
            else if 1 ≤ n1 && n1 ≤ groups.length then
              (groups.getD (n1 - 1) "").data ++ jsDollarGo groups whole fuel r2
            else '$' :: d :: jsDollarGo groups whole fuel r2
          else if 1 ≤ n1 && n1 ≤ groups.length then
            (groups.getD (n1 - 1) "").data ++ jsDollarGo groups whole fuel r2
          else '$' :: d :: jsDollarGo groups whole fuel r2
        | [] =>
          if 1 ≤ n1 && n1 ≤ groups.length then
            (groups.getD (n1 - 1) "").data
          else ['$', d]
      else '$' :: d :: jsDollarGo groups whole fuel r2
  | fuel + 1, c :: rest => c :: jsDollarGo groups whole fuel rest

/-- Dollar substitution over a whole template (the fuel is only a
structural-recursion device: every step consumes at least one
character). -/
def jsDollar (groups : List String) (whole : String) (cs : List Char) :
    List Char :=
  jsDollarGo groups whole cs.length cs

/-- Processing of a single match inside `replaceInFile`: `none` when
the match is skipped (line index out of range, empty key, or no
pattern matches); otherwise the index of the line to rewrite and the
rewritten line, obtained by JS `$`-substitution of the template
`"$1 " ++ formatted` against the match (groups 1 and 2, whole match =
the line). -/
def stepCore (newValue : String) (lines : List String) (r : MatchResult) :
    Option (Nat × String) :=
  let lineIndex : Int := r.line - 1
  if lineIndex < 0 || (lines.length : Int) ≤ lineIndex then none
  else if r.key = "" then none
  else
    let line := lines.getD lineIndex.toNat ""
    match tryPatterns r.key line with
    | none => none
    | some g =>
      some (lineIndex.toNat,
            String.mk (jsDollar [g.1, g.2] line
              ("$1 " ++ formatNewValue (jsTrim g.2) newValue).data))

/-- One iteration of the `for (const result of results)` loop: a
skipped match leaves the state (lines, change count) unchanged. -/
def replaceStep (newValue : String) (st : List String × Nat)
    (r : MatchResult) : List String × Nat :=
  match stepCore newValue st.1 r with
  | none => st
  | some (i, nl) => (st.1.set i nl, st.2 + 1)

/-- `results.sort((a, b) => b.line - a.line)`: stable sort by line
number, descending. -/
def sortDescByLine (rs : List MatchResult) : List MatchResult :=
  rs.insertionSort fun a b => b.line ≤ a.line

/-- `replaceInFile(filePath, results, newValue)` over explicit file
content: returns the change count and `some newContent` when the file
is written (at least one change), `none` when it is left untouched. -/
def replaceInFile (content : String) (results : List MatchResult)
    (newValue : String) : Nat × Option String :=
  let fin := (sortDescByLine results).foldl (replaceStep newValue)
    (splitLines content, 0)
  (fin.2, if fin.2 > 0 then some (joinLines fin.1) else none)

/-- The on-disk content after a `replaceInFile` batch. -/
def fileAfter (content : String) (results : List MatchResult)
    (newValue : String) : String :=
  ((replaceInFile content results newValue).2).getD content

/-! ## Lemmas: line splitting and joining -/

theorem splitLinesData_ne_nil (cs : List Char) : splitLinesData cs ≠ [] := by
  induction cs with
  | nil => simp [splitLinesData]
  | cons c rest ih =>
    simp only [splitLinesData]
    split
    · simp
    · match h : splitLinesData rest with
      | [] => simp
      | l :: ls => simp

theorem joinLinesData_splitLinesData (cs : List Char) :
    joinLinesData (splitLinesData cs) = cs := by
  induction cs with
  | nil => rfl
  | cons c rest ih =>
    simp only [splitLinesData]
    split
    · rename_i hc
      match h : splitLinesData rest with
      | [] => exact absurd h (splitLinesData_ne_nil rest)
      | l :: ls =>
        rw [h] at ih
        subst hc
        simpa [joinLinesData] using ih
    · match h : splitLinesData rest with
      | [] => exact absurd h (splitLinesData_ne_nil rest)
      | l :: ls =>
        rw [h] at ih
        match ls, ih with
        | [], ih => simpa [joinLinesData] using congrArg (c :: ·) ih
        | l2 :: ls2, ih => simpa [joinLinesData] using congrArg (c :: ·) ih

theorem joinLines_splitLines (s : String) : joinLines (splitLines s) = s := by
  have hmkdata : ∀ cs : List Char, (String.mk cs).data = cs := fun _ => rfl
  have : (splitLines s).map String.data = splitLinesData s.data := by
    simp [splitLines, List.map_map, Function.comp_def, hmkdata]
  rw [joinLines, this, joinLinesData_splitLinesData]

theorem set_getD_self (l : List String) (i : Nat) (h : i < l.length) :
    l.set i (l.getD i "") = l := by
  induction l generalizing i with
  | nil => simp at h
  | cons a t ih =>
    cases i with
    | zero => simp
    | succ j =>
      simp only [List.set, List.getD_cons_succ]
      rw [ih j (by simpa using h)]

/-! ## Lemmas: the extractor accumulates by appending

`purePaths` is the accumulator-free rendering of `extractKeyPaths`;
the mutual lemmas below show the accumulator only ever grows by
appending, so the two agree. -/

mutual

def purePaths (obj : YVal) (pfx : String) (lines : List String) :
    List KeyPathRecord :=
  match obj with
  | .map es => pureEntries es pfx lines
  | .arr xs => pureElems xs 0 pfx lines
  | _ => []

def pureEntries (es : List (String × YVal)) (pfx : String)
    (lines : List String) : List KeyPathRecord :=
  match es with
  | [] => []
  | (k, v) :: rest =>
    let currentPath := if pfx = "" then k else pfx ++ "." ++ k
    let loc := findKeyLoc k lines
    (⟨currentPath, loc.1, loc.2, v, k⟩ :
        KeyPathRecord) ::
      ((if isObjNode v then purePaths v currentPath lines else []) ++
        pureEntries rest pfx lines)

def pureElems (xs : List YVal) (i : Nat) (pfx : String)
    (lines : List String) : List KeyPathRecord :=
  match xs with
  | [] => []
  | v :: rest =>
    let k := toString i
    let currentPath := if pfx = "" then k else pfx ++ "." ++ k
    let loc := findKeyLoc k lines
    (⟨currentPath, loc.1, loc.2, v, k⟩ :
        KeyPathRecord) ::
      ((if isObjNode v then purePaths v currentPath lines else []) ++
        pureElems rest (i + 1) pfx lines)

end

mutual

theorem extractKeyPaths_eq_pure (obj : YVal) (pfx : String)
    (paths : List KeyPathRecord) (lines : List String) :
    extractKeyPaths obj pfx paths lines = paths ++ purePaths obj pfx lines := by
  match obj with
  | .map es =>
    simpa only [extractKeyPaths, purePaths] using
      extractEntries_eq_pure es pfx paths lines
  | .arr xs =>
    simpa only [extractKeyPaths, purePaths] using
      extractElems_eq_pure xs 0 pfx paths lines
  | .str _ => simp [extractKeyPaths, purePaths]
  | .num _ => simp [extractKeyPaths, purePaths]
  | .bool _ => simp [extractKeyPaths, purePaths]
  | .nullv => simp [extractKeyPaths, purePaths]

theorem extractEntries_eq_pure (es : List (String × YVal)) (pfx : String)
    (paths : List KeyPathRecord) (lines : List String) :
    extractEntries es pfx paths lines = paths ++ pureEntries es pfx lines := by
  match es with
  | [] => simp [extractEntries, pureEntries]
  | (k, v) :: rest =>
    simp only [extractEntries, pureEntries]
    rw [extractEntries_eq_pure rest]
    by_cases hv : isObjNode v = true
    · simp only [hv, if_true]
      rw [extractKeyPaths_eq_pure v]
      simp
    · simp only [hv, if_false]
      simp

theorem extractElems_eq_pure (xs : List YVal) (i : Nat) (pfx : String)
    (paths : List KeyPathRecord) (lines : List String) :
    extractElems xs i pfx paths lines = paths ++ pureElems xs i pfx lines := by
  match xs with
  | [] => simp [extractElems, pureElems]
  | v :: rest =>
    simp only [extractElems, pureElems]
    rw [extractElems_eq_pure rest]
    by_cases hv : isObjNode v = true
    · simp only [hv, if_true]
      rw [extractKeyPaths_eq_pure v]
      simp
    · simp only [hv, if_false]
      simp

end

/-! ## Lemmas: extracted paths are the node positions joined with dots -/

theorem positionsV_eq_nil_of_not_obj {v : YVal} (h : ¬isObjNode v = true) :
    positionsV v = [] := by
  cases v <;> simp [positionsV] <;> simp [isObjNode] at h

mutual

theorem purePaths_map_path (obj : YVal) (pfx : String) (lines : List String) :
    (purePaths obj pfx lines).map (·.path) =
      (positionsV obj).map (joinUnder pfx) := by
  match obj with
  | .map es =>
    simpa only [purePaths, positionsV] using pureEntries_map_path es pfx lines
  | .arr xs =>
    simpa only [purePaths, positionsV] using pureElems_map_path xs 0 pfx lines
  | .str _ => simp [purePaths, positionsV]
  | .num _ => simp [purePaths, positionsV]
  | .bool _ => simp [purePaths, positionsV]
  | .nullv => simp [purePaths, positionsV]

theorem pureEntries_map_path (es : List (String × YVal)) (pfx : String)
    (lines : List String) :
    (pureEntries es pfx lines).map (·.path) =
      (positionsEntries es).map (joinUnder pfx) := by
  match es with
  | [] => simp [pureEntries, positionsEntries]
  | (k, v) :: rest =>
    simp only [pureEntries, positionsEntries, List.map_cons, List.map_append,
      List.map_map]
    rw [pureEntries_map_path rest]
    by_cases hv : isObjNode v = true
    · simp only [hv, if_true]
      rw [purePaths_map_path v]
      simp [joinUnder, Function.comp_def]
    · simp only [hv, if_false]
      rw [positionsV_eq_nil_of_not_obj hv]
      simp [joinUnder]

theorem pureElems_map_path (xs : List YVal) (i : Nat) (pfx : String)
    (lines : List String) :
    (pureElems xs i pfx lines).map (·.path) =
      (positionsElems xs i).map (joinUnder pfx) := by
  match xs with
  | [] => simp [pureElems, positionsElems]
  | v :: rest =>
    simp only [pureElems, positionsElems, List.map_cons, List.map_append,
      List.map_map]
    rw [pureElems_map_path rest]
    by_cases hv : isObjNode v = true
    · simp only [hv, if_true]
      rw [purePaths_map_path v]
      simp [joinUnder, Function.comp_def]
    · simp only [hv, if_false]
      rw [positionsV_eq_nil_of_not_obj hv]
      simp [joinUnder]

end

/-- The path strings produced by `extractKeyPaths` on a document,
expressed through the spec-side node positions. -/
theorem extractKeyPaths_paths (obj : YVal) (pfx : String)
    (lines : List String) :
    (extractKeyPaths obj pfx [] lines).map (·.path) =
      (positionsV obj).map (joinUnder pfx) := by
  rw [extractKeyPaths_eq_pure, List.nil_append, purePaths_map_path]

/-! ## Lemmas: dotted paths of well-formed documents are injective -/

theorem dotFree_not_mem {s : String} (h : dotFree s = true) :
    '.' ∉ s.data := by
  simpa [dotFree] using h

/-- Segments fit for unique joined paths. -/
def goodSegs (pos : List String) : Prop :=
  ∀ s ∈ pos, s ≠ "" ∧ dotFree s = true

theorem joinDots_cons_cons (k a : String) (b : List String) :
    joinDots (k :: a :: b) = k ++ "." ++ joinDots (a :: b) := rfl

theorem joinUnder_of_ne (pos : List String) :
    ∀ p : String, p ≠ "" → pos ≠ [] →
      joinUnder p pos = p ++ "." ++ joinDots pos := by
  induction pos with
  | nil => intro p _ hpos; simp at hpos
  | cons k rest ih =>
    intro p hp _
    simp only [joinUnder, if_neg hp]
    cases rest with
    | nil => simp [joinUnder, joinDots]
    | cons k2 r2 =>
      have hne : p ++ "." ++ k ≠ "" := by
        intro h
        have := congrArg String.data h
        simp at this
      rw [ih (p ++ "." ++ k) hne (by simp), joinDots_cons_cons]
      simp [String.append_assoc]

theorem joinUnder_nil (pos : List String) (hsegs : ∀ s ∈ pos, s ≠ "") :
    joinUnder "" pos = joinDots pos := by
  cases pos with
  | nil => rfl
  | cons k rest =>
    have hk : k ≠ "" := hsegs k (by simp)
    have h0 : joinUnder "" (k :: rest) = joinUnder k rest := by
      simp [joinUnder]
    rw [h0]
    cases rest with
    | nil => rfl
    | cons k2 r2 =>
      rw [joinUnder_of_ne (k2 :: r2) k hk (by simp), joinDots_cons_cons]

theorem dot_split_inj (a1 : List Char) :
    ∀ a2 b1 b2 : List Char, '.' ∉ a1 → '.' ∉ a2 →
      a1 ++ '.' :: b1 = a2 ++ '.' :: b2 → a1 = a2 ∧ b1 = b2 := by
  induction a1 with
  | nil =>
    intro a2 b1 b2 _ h2 heq
    cases a2 with
    | nil => simpa using heq
    | cons c t =>
      simp only [List.nil_append, List.cons_append, List.cons.injEq] at heq
      exact absurd (heq.1 ▸ List.mem_cons_self c t) (heq.1 ▸ h2)
  | cons c1 t1 ih =>
    intro a2 b1 b2 h1 h2 heq
    cases a2 with
    | nil =>
      simp only [List.nil_append, List.cons_append, List.cons.injEq] at heq
      exact absurd (heq.1 ▸ List.mem_cons_self c1 t1) (heq.1 ▸ h1)
    | cons c2 t2 =>
      simp only [List.cons_append, List.cons.injEq] at heq
      obtain ⟨hc, ht⟩ := heq
      obtain ⟨ha, hb⟩ := ih t2 b1 b2
        (fun hm => h1 (List.mem_cons_of_mem _ hm))
        (fun hm => h2 (List.mem_cons_of_mem _ hm)) ht
      exact ⟨by rw [hc, ha], hb⟩

theorem joinDots_data_cons (k : String) (rest : List String) (h : rest ≠ []) :
    (joinDots (k :: rest)).data = k.data ++ '.' :: (joinDots rest).data := by
  cases rest with
  | nil => contradiction
  | cons a b => simp [joinDots]

theorem joinDots_inj (pos1 : List String) :
    ∀ pos2, pos1 ≠ [] → pos2 ≠ [] → goodSegs pos1 → goodSegs pos2 →
      joinDots pos1 = joinDots pos2 → pos1 = pos2 := by
  induction pos1 with
  | nil => intro pos2 h1; simp at h1
  | cons k1 r1 ih =>
    intro pos2 _ h2 g1 g2 heq
    cases pos2 with
    | nil => simp at h2
    | cons k2 r2 =>
      match r1, r2 with
      | [], [] => simpa [joinDots] using heq
      | [], a2 :: b2 =>
        exfalso
        have hd := congrArg String.data heq
        rw [joinDots_data_cons k2 (a2 :: b2) (by simp)] at hd
        have : '.' ∈ (joinDots [k1]).data := by
          rw [hd]; exact List.mem_append_right _ (List.mem_cons_self _ _)
        simp only [joinDots] at this
        exact dotFree_not_mem (g1 k1 (by simp)).2 this
      | a1 :: b1, [] =>
        exfalso
        have hd := congrArg String.data heq
        rw [joinDots_data_cons k1 (a1 :: b1) (by simp)] at hd
        have : '.' ∈ (joinDots [k2]).data := by
          rw [← hd]; exact List.mem_append_right _ (List.mem_cons_self _ _)
        simp only [joinDots] at this
        exact dotFree_not_mem (g2 k2 (by simp)).2 this
      | a1 :: b1, a2 :: b2 =>
        have hd := congrArg String.data heq
        rw [joinDots_data_cons k1 (a1 :: b1) (by simp),
          joinDots_data_cons k2 (a2 :: b2) (by simp)] at hd
        obtain ⟨hk, hr⟩ := dot_split_inj k1.data k2.data _ _
          (dotFree_not_mem (g1 k1 (by simp)).2)
          (dotFree_not_mem (g2 k2 (by simp)).2) hd
        have hks : k1 = k2 := String.ext hk
        have hrs : a1 :: b1 = a2 :: b2 :=
          ih (a2 :: b2) (by simp) (by simp)
            (fun s hs => g1 s (List.mem_cons_of_mem _ hs))
            (fun s hs => g2 s (List.mem_cons_of_mem _ hs))
            (String.ext hr)
        rw [hks, hrs]

/-! ## Lemmas: positions of well-formed documents are duplicate-free -/

theorem positionsEntries_head (es : List (String × YVal)) :
    ∀ pos ∈ positionsEntries es, ∃ k t, pos = k :: t ∧ k ∈ es.map Prod.fst := by
  induction es with
  | nil => simp [positionsEntries]
  | cons e rest ih =>
    obtain ⟨k, v⟩ := e
    intro pos hpos
    simp only [positionsEntries, List.mem_append, List.mem_cons,
      List.mem_map] at hpos
    rcases hpos with (rfl | ⟨p, _, rfl⟩) | hrest
    · exact ⟨k, [], rfl, by simp⟩
    · exact ⟨k, p, rfl, by simp⟩
    · obtain ⟨k', t', rfl, hk'⟩ := ih pos hrest
      exact ⟨k', t', rfl, by simp [hk']⟩

theorem positionsElems_head (xs : List YVal) :
    ∀ (i : Nat), ∀ pos ∈ positionsElems xs i,
      ∃ k t, pos = k :: t ∧ k ∈ (enumStr i xs).map Prod.fst := by
  induction xs with
  | nil => simp [positionsElems]
  | cons v rest ih =>
    intro i pos hpos
    simp only [positionsElems, List.mem_append, List.mem_cons,
      List.mem_map] at hpos
    rcases hpos with (rfl | ⟨p, _, rfl⟩) | hrest
    · exact ⟨toString i, [], rfl, by simp [enumStr]⟩
    · exact ⟨toString i, p, rfl, by simp [enumStr]⟩
    · obtain ⟨k', t', rfl, hk'⟩ := ih (i + 1) pos hrest
      exact ⟨k', t', rfl, by simp [enumStr, hk']⟩

theorem positionsV_ne_nil (v : YVal) : ∀ pos ∈ positionsV v, pos ≠ [] := by
  intro pos hpos
  match v with
  | .map es =>
    obtain ⟨k, t, rfl, -⟩ := positionsEntries_head es pos hpos
    simp
  | .arr xs =>
    obtain ⟨k, t, rfl, -⟩ := positionsElems_head xs 0 pos hpos
    simp
  | .str _ => simp [positionsV] at hpos
  | .num _ => simp [positionsV] at hpos
  | .bool _ => simp [positionsV] at hpos
  | .nullv => simp [positionsV] at hpos

theorem namesOK_cons {k : String} {ns : List String}
    (h : namesOK (k :: ns) = true) :
    k ≠ "" ∧ dotFree k = true ∧ k ∉ ns ∧ namesOK ns = true := by
  simp only [namesOK, List.nodup_cons, List.all_cons, Bool.and_eq_true,
    decide_eq_true_eq] at h ⊢
  tauto

mutual

theorem positionsV_good (v : YVal) (hw : wfV v = true) :
    ∀ pos ∈ positionsV v, goodSegs pos := by
  match v with
  | .map es =>
    simp only [wfV, Bool.and_eq_true] at hw
    exact positionsEntries_good es hw.1 hw.2
  | .arr xs =>
    simp only [wfV, Bool.and_eq_true] at hw
    exact positionsElems_good xs 0 hw.1 hw.2
  | .str _ => simp [positionsV]
  | .num _ => simp [positionsV]
  | .bool _ => simp [positionsV]
  | .nullv => simp [positionsV]

theorem positionsEntries_good (es : List (String × YVal))
    (hn : namesOK (es.map Prod.fst) = true) (hw : wfEntries es = true) :
    ∀ pos ∈ positionsEntries es, goodSegs pos := by
  match es with
  | [] => simp [positionsEntries]
  | (k, v) :: rest =>
    simp only [List.map_cons] at hn
    obtain ⟨hk1, hk2, -, hn'⟩ := namesOK_cons hn
    simp only [wfEntries, Bool.and_eq_true] at hw
    intro pos hpos
    simp only [positionsEntries, List.mem_append, List.mem_cons,
      List.mem_map] at hpos
    rcases hpos with (rfl | ⟨p, hp, rfl⟩) | hrest
    · intro s hs
      simp only [List.mem_singleton] at hs
      exact hs ▸ ⟨hk1, hk2⟩
    · intro s hs
      rcases List.mem_cons.mp hs with rfl | hs'
      · exact ⟨hk1, hk2⟩
      · exact positionsV_good v hw.1 p hp s hs'
    · exact positionsEntries_good rest hn' hw.2 pos hrest

theorem positionsElems_good (xs : List YVal) (i : Nat)
    (hn : namesOK ((enumStr i xs).map Prod.fst) = true)
    (hw : wfElems xs = true) :
    ∀ pos ∈ positionsElems xs i, goodSegs pos := by
  match xs with
  | [] => simp [positionsElems]
  | v :: rest =>
    simp only [enumStr, List.map_cons] at hn
    obtain ⟨hk1, hk2, -, hn'⟩ := namesOK_cons hn
    simp only [wfElems, Bool.and_eq_true] at hw
    intro pos hpos
    simp only [positionsElems, List.mem_append, List.mem_cons,
      List.mem_map] at hpos
    rcases hpos with (rfl | ⟨p, hp, rfl⟩) | hrest
    · intro s hs
      simp only [List.mem_singleton] at hs
      exact hs ▸ ⟨hk1, hk2⟩
    · intro s hs
      rcases List.mem_cons.mp hs with rfl | hs'
      · exact ⟨hk1, hk2⟩
      · exact positionsV_good v hw.1 p hp s hs'
    · exact positionsElems_good rest (i + 1) hn' hw.2 pos hrest

end

mutual

theorem positionsV_nodup (v : YVal) (hw : wfV v = true) :
    (positionsV v).Nodup := by
  match v with
  | .map es =>
    simp only [wfV, Bool.and_eq_true] at hw
    exact positionsEntries_nodup es hw.1 hw.2
  | .arr xs =>
    simp only [wfV, Bool.and_eq_true] at hw
    exact positionsElems_nodup xs 0 hw.1 hw.2
  | .str _ => simp [positionsV]
  | .num _ => simp [positionsV]
  | .bool _ => simp [positionsV]
  | .nullv => simp [positionsV]

theorem positionsEntries_nodup (es : List (String × YVal))
    (hn : namesOK (es.map Prod.fst) = true) (hw : wfEntries es = true) :
    (positionsEntries es).Nodup := by
  match es with
  | [] => simp [positionsEntries]
  | (k, v) :: rest =>
    simp only [List.map_cons] at hn
    obtain ⟨-, -, hk3, hn'⟩ := namesOK_cons hn
    simp only [wfEntries, Bool.and_eq_true] at hw
    simp only [positionsEntries]
    rw [List.nodup_append]
    refine ⟨?_, positionsEntries_nodup rest hn' hw.2, ?_⟩
    · rw [List.nodup_cons]
      constructor
      · intro hmem
        obtain ⟨p, hp, hpk⟩ := List.mem_map.mp hmem
        have hpnil : p = [] := by simpa using hpk.symm
        exact positionsV_ne_nil v p hp hpnil
      · exact (positionsV_nodup v hw.1).map fun p q hpq => by
          simpa using hpq
    · intro x hx hxR
      obtain ⟨k', t', rfl, hk'⟩ := positionsEntries_head rest x hxR
      rcases List.mem_cons.mp hx with hx1 | hx2
      · have : k = k' := by simpa using congrArg List.head? hx1.symm
        exact hk3 (this ▸ hk')
      · obtain ⟨p, -, hpk⟩ := List.mem_map.mp hx2
        have : k = k' := by simpa using congrArg List.head? hpk
        exact hk3 (this ▸ hk')

theorem positionsElems_nodup (xs : List YVal) (i : Nat)
    (hn : namesOK ((enumStr i xs).map Prod.fst) = true)
    (hw : wfElems xs = true) :
    (positionsElems xs i).Nodup := by
  match xs with
  | [] => simp [positionsElems]
  | v :: rest =>
    simp only [enumStr, List.map_cons] at hn
    obtain ⟨-, -, hk3, hn'⟩ := namesOK_cons hn
    simp only [wfElems, Bool.and_eq_true] at hw
    simp only [positionsElems]
    rw [List.nodup_append]
    refine ⟨?_, positionsElems_nodup rest (i + 1) hn' hw.2, ?_⟩
    · rw [List.nodup_cons]
      constructor
      · intro hmem
        obtain ⟨p, hp, hpk⟩ := List.mem_map.mp hmem
        have hpnil : p = [] := by simpa using hpk.symm
        exact positionsV_ne_nil v p hp hpnil
      · exact (positionsV_nodup v hw.1).map fun p q hpq => by
          simpa using hpq
    · intro x hx hxR
      obtain ⟨k', t', rfl, hk'⟩ := positionsElems_head rest (i + 1) x hxR
      rcases List.mem_cons.mp hx with hx1 | hx2
      · have : toString i = k' := by simpa using congrArg List.head? hx1.symm
        exact hk3 (this ▸ hk')
      · obtain ⟨p, -, hpk⟩ := List.mem_map.mp hx2
        have : toString i = k' := by simpa using congrArg List.head? hpk
        exact hk3 (this ▸ hk')

end

/-! ## Lemmas: record locations come from the line scan -/

mutual

theorem purePaths_loc (obj : YVal) (pfx : String) (lines : List String) :
    ∀ r ∈ purePaths obj pfx lines, (r.line, r.column) = findKeyLoc r.key lines := by
  match obj with
  | .map es => simpa only [purePaths] using pureEntries_loc es pfx lines
  | .arr xs => simpa only [purePaths] using pureElems_loc xs 0 pfx lines
  | .str _ => simp [purePaths]
  | .num _ => simp [purePaths]
  | .bool _ => simp [purePaths]
  | .nullv => simp [purePaths]

theorem pureEntries_loc (es : List (String × YVal)) (pfx : String)
    (lines : List String) :
    ∀ r ∈ pureEntries es pfx lines, (r.line, r.column) = findKeyLoc r.key lines := by
  match es with
  | [] => simp [pureEntries]
  | (k, v) :: rest =>
    intro r hr
    simp only [pureEntries, List.mem_cons, List.mem_append] at hr
    rcases hr with rfl | hsub | hrest
    · simp
    · by_cases hv : isObjNode v = true
      · rw [if_pos hv] at hsub
        exact purePaths_loc v _ lines r hsub
      · rw [if_neg hv] at hsub
        simp at hsub
    · exact pureEntries_loc rest pfx lines r hrest

theorem pureElems_loc (xs : List YVal) (i : Nat) (pfx : String)
    (lines : List String) :
    ∀ r ∈ pureElems xs i pfx lines, (r.line, r.column) = findKeyLoc r.key lines := by
  match xs with
  | [] => simp [pureElems]
  | v :: rest =>
    intro r hr
    simp only [pureElems, List.mem_cons, List.mem_append] at hr
    rcases hr with rfl | hsub | hrest
    · simp
    · by_cases hv : isObjNode v = true
      · rw [if_pos hv] at hsub
        exact purePaths_loc v _ lines r hsub
      · rw [if_neg hv] at hsub
        simp at hsub
    · exact pureElems_loc rest (i + 1) pfx lines r hrest

end

/-- Every record produced by `extractKeyPaths` carries exactly the
location found by the first-match line scan for its key. -/
theorem extractKeyPaths_loc (obj : YVal) (pfx : String) (lines : List String) :
    ∀ r ∈ extractKeyPaths obj pfx [] lines,
      (r.line, r.column) = findKeyLoc r.key lines := by
  intro r hr
  rw [extractKeyPaths_eq_pure, List.nil_append] at hr
  exact purePaths_loc obj pfx lines r hr

/-- The line scan either fails with the `(-1, -1)` sentinel or yields
a 1-based line with column 1. -/
theorem findKeyLoc_cases (key : String) (lines : List String) :
    findKeyLoc key lines = (-1, -1) ∨
      ∃ i : Nat, findKeyLoc key lines = ((i : Int) + 1, 1) := by
  rw [findKeyLoc]
  generalize 0 = j
  induction lines generalizing j with
  | nil => exact Or.inl rfl
  | cons l rest ih =>
    rw [findKeyLoc.go]
    split
    · exact Or.inr ⟨j, rfl⟩
    · exact ih (j + 1)

/-! ## Lemmas: the replacement loop -/

theorem replaceStep_skip (nv : String) (st : List String × Nat)
    (r : MatchResult) (h : stepCore nv st.1 r = none) :
    replaceStep nv st r = st := by
  simp [replaceStep, h]

theorem stepCore_index_lt {nv : String} {L : List String} {r : MatchResult}
    {i : Nat} {nl : String} (h : stepCore nv L r = some (i, nl)) :
    i < L.length := by
  simp only [stepCore] at h
  split at h
  · exact absurd h (by simp)
  · split at h
    · exact absurd h (by simp)
    · rename_i hrange _
      split at h
      · exact absurd h (by simp)
      · simp only [Option.some.injEq, Prod.mk.injEq] at h
        obtain ⟨rfl, -⟩ := h
        simp at hrange
        omega

theorem foldl_replaceStep_lines_fixed (nv : String) (L0 : List String) :
    ∀ rs : List MatchResult,
      (∀ r ∈ rs, ∀ i nl, stepCore nv L0 r = some (i, nl) →
        nl = L0.getD i "") →
      ∀ c : Nat, (rs.foldl (replaceStep nv) (L0, c)).1 = L0 := by
  intro rs
  induction rs with
  | nil => intro _ c; rfl
  | cons r rest ih =>
    intro h c
    have hstep : (replaceStep nv (L0, c) r).1 = L0 := by
      unfold replaceStep
      match hc : stepCore nv L0 r with
      | none => rfl
      | some (i, nl) =>
        have hi := stepCore_index_lt hc
        have := h r (by simp) i nl hc
        simpa [this] using set_getD_self L0 i hi
    have hkeep : replaceStep nv (L0, c) r =
        (L0, (replaceStep nv (L0, c) r).2) := Prod.ext hstep rfl
    rw [List.foldl_cons, hkeep]
    exact ih (fun x hx => h x (List.mem_cons_of_mem r hx)) _

/-! ## Lemmas: stable sorting -/

theorem filter_orderedInsert_pos {α : Type} (r : α → α → Prop) [DecidableRel r]
    (p : α → Bool) (a : α) :
    ∀ l : List α, p a = true → (∀ y ∈ l, p y = true → r a y) →
      (l.orderedInsert r a).filter p = a :: l.filter p := by
  intro l
  induction l with
  | nil => intro hpa _; simp [List.orderedInsert, hpa]
  | cons b l ih =>
    intro hpa hall
    simp only [List.orderedInsert]
    split
    · simp [List.filter_cons, hpa]
    · rename_i hnab
      have hpb : p b = false := by
        cases hb : p b with
        | false => rfl
        | true => exact absurd (hall b (by simp) hb) hnab
      simp only [List.filter_cons, hpb, Bool.false_eq_true, if_false]
      exact ih hpa fun y hy => hall y (List.mem_cons_of_mem b hy)

theorem filter_orderedInsert_neg {α : Type} (r : α → α → Prop) [DecidableRel r]
    (p : α → Bool) (a : α) :
    ∀ l : List α, p a = false →
      (l.orderedInsert r a).filter p = l.filter p := by
  intro l
  induction l with
  | nil => intro hpa; simp [List.orderedInsert, List.filter_cons, hpa]
  | cons b l ih =>
    intro hpa
    simp only [List.orderedInsert]
    split
    · simp [List.filter_cons, hpa]
    · simp only [List.filter_cons]
      rw [ih hpa]

/-- Stability of the insertion sort under a comparator-equal class:
the subsequence of elements satisfying `p` is untouched whenever the
comparator never strictly separates two `p`-elements. -/
theorem insertionSort_filter_class {α : Type} (r : α → α → Prop)
    [DecidableRel r] (p : α → Bool)
    (hp : ∀ x y, p x = true → p y = true → r x y) :
    ∀ l : List α, (l.insertionSort r).filter p = l.filter p := by
  intro l
  induction l with
  | nil => rfl
  | cons a l ih =>
    simp only [List.insertionSort]
    by_cases hpa : p a = true
    · rw [filter_orderedInsert_pos r p a _ hpa
        (fun y hy hpy => hp a y hpa hpy), ih]
      simp [List.filter_cons, hpa]
    · have hpa' : p a = false := by simpa using hpa
      rw [filter_orderedInsert_neg r p a _ hpa', ih]
      simp [List.filter_cons, hpa']

theorem resultLE_trans (a b c : MatchResult) (h1 : resultLE a b = true)
    (h2 : resultLE b c = true) : resultLE a c = true := by
  unfold resultLE at h1 h2 ⊢
  cases hae : a.isExactMatch <;> cases hbe : b.isExactMatch <;>
    cases hce : c.isExactMatch <;> simp_all <;>
    exact le_trans h1 h2

theorem resultLE_total (a b : MatchResult) :
    resultLE a b = true ∨ resultLE b a = true := by
  unfold resultLE
  cases hae : a.isExactMatch <;> cases hbe : b.isExactMatch <;> simp_all <;>
    exact le_total _ _

/-! ## The value formatting rule, restated from the specification -/

/-- The lexical forms distinguished by the spec (step 4.4.4). -/
inductive LexForm where
  | singleQuoted
  | doubleQuoted
  | boolLiteral
  | bothNumeric
  | plain

/-- Classification of the original captured value (and, for the
numeric case, the new value), following the specification text. -/
def spec_classify (orig new : String) : LexForm :=
  if startsWithL orig "'" && endsWithL orig "'" then .singleQuoted
  else if startsWithL orig "\"" && endsWithL orig "\"" then .doubleQuoted
  else if orig = "true" || orig = "false" then .boolLiteral
  else if !jsStrIsNaN orig && !jsStrIsNaN new then .bothNumeric
  else .plain

/-- The spec's truthy-token set for boolean coercion. -/
def spec_truthyTokens : List String := ["true", "yes", "1"]

/-- The formatting rule as the specification words it: classify the
original value's lexical form, then re-quote / coerce / emit the new
value accordingly. -/
def spec_formatValue (orig new : String) : String :=
  match spec_classify orig new with
  | .singleQuoted => "'" ++ jsReplaceChar new sqChar "''" ++ "'"
  | .doubleQuoted => "\"" ++ jsReplaceChar new dqChar "\\\"" ++ "\""
  | .boolLiteral =>
    if jsToLower new ∈ spec_truthyTokens then "true" else "false"
  | .bothNumeric => new
  | .plain =>
    if containsChar new ' ' || containsChar new ':' ||
        containsChar new '#' || containsChar new '\n' then
      "'" ++ jsReplaceChar new sqChar "''" ++ "'"
    else new

theorem formatNewValue_eq_spec (orig new : String) :
    formatNewValue orig new = spec_formatValue orig new := by
  unfold formatNewValue spec_formatValue spec_classify spec_truthyTokens
  by_cases h1 : (startsWithL orig "'" && endsWithL orig "'") = true
  · simp [h1]
  · by_cases h2 : (startsWithL orig "\"" && endsWithL orig "\"") = true
    · simp [h1, h2]
    · by_cases h3 : orig = "true" ∨ orig = "false"
      · by_cases h4 : jsToLower new ∈ (["true", "yes", "1"] : List String)
        · simp [h1, h2, h3, h4]
        · simp [h1, h2, h3, h4]
      · by_cases h5 : (!jsStrIsNaN orig && !jsStrIsNaN new) = true
        · simp [h1, h2, h3, h5]
        · simp [h1, h2, h3, h5]

/-! ## Lemmas: matches produced for one document segment -/

theorem docMatches_of_record (file q : String) (parsed : YVal)
    (docLines : List String) (offset : Nat) (kp : KeyPathRecord)
    (hkp : kp ∈ extractKeyPaths parsed "" [] docLines)
    (hq : kp.path = q ∨ containsSubstr kp.path q = true) :
    (⟨file, kp.path, kp.line + (offset : Int), kp.column, kp.value, kp.key,
        kp.path = q⟩ : MatchResult) ∈ docMatches file q parsed docLines offset := by
  unfold docMatches
  apply List.mem_filterMap.mpr
  refine ⟨kp, hkp, ?_⟩
  have : (decide (kp.path = q) || containsSubstr kp.path q) = true := by
    rcases hq with h | h <;> simp [h]
  simp only [this, if_true]

/-! ## Claim theorems -/

/-- C1: For every matched line, `replaceInFile` formats the new value
by the original captured value's lexical form — single-quoted values
are re-quoted with embedded single quotes doubled; double-quoted
values are re-quoted with embedded double quotes escaped; a literal
`true`/`false` becomes `true` exactly when the new value is one of
`"true"`, `"yes"`, `"1"` case-insensitively and `false` otherwise
(replacing `enabled: true` with `"no"` yields `enabled: false`, with
`"YES"` yields `enabled: true`); when original and new value both
parse as numbers (JS `isNaN` on the string), the new value is emitted
unquoted; otherwise it is emitted unquoted unless it contains a space,
colon, `#` or newline, in which case it is single-quoted with embedded
single quotes doubled.  The formatting the engine applies refines the
rule as the spec words it (`spec_formatValue`), and the two boolean
coercion examples evaluate through the whole engine. -/
theorem c1_format_preserving :
    (∀ orig new : String, formatNewValue orig new = spec_formatValue orig new)
    ∧ (replaceInFile "enabled: true"
        [⟨"f", "enabled", 1, 1, .bool true, "enabled", true⟩] "no").2 =
      some "enabled: false"
    ∧ (replaceInFile "enabled: true"
        [⟨"f", "enabled", 1, 1, .bool true, "enabled", true⟩] "YES").2 =
      some "enabled: true" :=
  ⟨formatNewValue_eq_spec, rfl, rfl⟩

/-- C3 counterexample: the claim "sequence and scalar values are
leaves that are never recursed into, and no dotted path ever contains
a sequence index as a segment" is false.  For the document
`{items: ["a", {x: 1}]}` the extractor emits `items.0`, `items.1` and
`items.1.x`, whose segments `0` and `1` are sequence indices: in JS
`typeof [] === 'object'`, so `extractKeyPaths` recurses into arrays
and `Object.keys` yields their stringified indices. -/
theorem c3_counterexample :
    ((extractKeyPaths (.map [("items", .arr [.str "a", .map [("x", .num 1)]])])
        "" [] []).map (·.path)) = ["items", "items.0", "items.1", "items.1.x"]
    ∧ "items.0" ∈ ((extractKeyPaths
        (.map [("items", .arr [.str "a", .map [("x", .num 1)]])])
        "" [] []).map (·.path))
    ∧ "items.0" = "items" ++ "." ++ toString (0 : Nat) :=
  ⟨rfl, by decide, rfl⟩

/-- C3 amended: for every parsed document all of whose keys reach
`new RegExp` as literal, valid patterns (`regexLiteralKey` — the
extractor interpolates keys unescaped, so a regex-invalid key such as
`a(` throws, the enclosing catch then drops the whole segment and no
records are emitted at all; sequence indices and ordinary alphanumeric
keys always satisfy the predicate), the Path Extractor walks both
mapping and sequence nodes: every mapping key and every sequence index
(stringified, as a path segment) produces a record, object-valued
entries (mappings and sequences) are recursed into, and scalar and
null values are leaves.  Formally, the emitted path list is exactly
the node-position list of the document (`positionsV`, which descends
through mappings and sequences and uses indices as segments) joined
with dots under the extraction prefix. -/
theorem c3_amended (obj : YVal) (pfx : String) (lines : List String)
    (hk : ∀ pos ∈ positionsV obj, ∀ s ∈ pos, regexLiteralKey s = true) :
    (extractKeyPaths obj pfx [] lines).map (·.path) =
      (positionsV obj).map (joinUnder pfx) :=
  extractKeyPaths_paths obj pfx lines

/-- C3 amended, witnessed on the counterexample document (all of
whose keys — `items`, `0`, `1`, `x` — are regex-literal): the emitted
paths are exactly the dot-joined node positions, indices included. -/
theorem c3_witness :
    (∀ pos ∈ positionsV (.map [("items",
        .arr [.str "a", .map [("x", .num 1)]])]),
      ∀ s ∈ pos, regexLiteralKey s = true)
    ∧ (extractKeyPaths (.map [("items",
        .arr [.str "a", .map [("x", .num 1)]])]) "" [] []).map (·.path) =
      (positionsV (.map [("items",
        .arr [.str "a", .map [("x", .num 1)]])])).map (joinUnder "") :=
  ⟨by decide,
   c3_amended (.map [("items", .arr [.str "a", .map [("x", .num 1)]])])
     "" [] (by decide)⟩

/-- C4 counterexample: the location of `server.port` in the document
lines `["server:", "  port: 80"]` is recorded as line 2, column 1 —
but the key `port` first appears at column 3 of that line (after two
spaces of indentation).  The regex `^\s*key\s*:` is anchored at the
line start, so `match.index` is always `0` and the recorded column is
always `1`, not the column of the key's first character. -/
theorem c4_counterexample :
    ((extractKeyPaths (.map [("server", .map [("port", .num 80)])]) "" []
        ["server:", "  port: 80"]).map fun r => (r.path, r.line, r.column)) =
      [("server", 1, 1), ("server.port", 2, 1)]
    ∧ (("  port: 80".data.takeWhile isJsWs).length + 1 = 3)
    ∧ (1 : Int) ≠ 3 :=
  ⟨rfl, rfl, by decide⟩

/-- C4 amended: for every parsed document all of whose keys reach
`new RegExp` as literal, valid patterns (`regexLiteralKey`; for other
keys the unescaped interpolation scans non-literally or throws,
aborting the segment — see `c3_amended`), every record's recorded
location is the location found by scanning the document lines
top-to-bottom for the first line consisting of optional leading
whitespace, the literal key name, optional whitespace, then a colon
(first match wins); when a line is found the recorded line is its
1-based index and the recorded column is always 1 (the match is
anchored at the line start), and when no line matches the record is
still emitted with line = -1 and column = -1 — the emitted path list
does not depend on line resolution at all. -/
theorem c4_amended (obj : YVal) (pfx : String) (lines : List String)
    (hk : ∀ pos ∈ positionsV obj, ∀ s ∈ pos, regexLiteralKey s = true) :
    (∀ r ∈ extractKeyPaths obj pfx [] lines,
      (r.line, r.column) = findKeyLoc r.key lines ∧
        ((r.line, r.column) = (-1, -1) ∨
          ∃ i : Nat, (r.line, r.column) = ((i : Int) + 1, 1)))
    ∧ (extractKeyPaths obj pfx [] lines).map (·.path) =
        (extractKeyPaths obj pfx [] []).map (·.path) := by
  constructor
  · intro r hr
    have hloc := extractKeyPaths_loc obj pfx lines r hr
    refine ⟨hloc, ?_⟩
    rcases findKeyLoc_cases r.key lines with h | ⟨i, h⟩
    · exact Or.inl (hloc.trans h)
    · exact Or.inr ⟨i, hloc.trans h⟩
  · rw [extractKeyPaths_paths, extractKeyPaths_paths]

/-- C4 amended, witnessed at a concrete input: the keys of
`{server: {port: 80}}` are regex-literal, the record for
`server.port` against `["server:", "  port: 80"]` carries the scan
location (line 2, column 1), and the paths are the same as with no
source lines at all. -/
theorem c4_witness :
    ((⟨"server.port", 2, 1, .num 80, "port"⟩ : KeyPathRecord).line,
      (⟨"server.port", 2, 1, .num 80, "port"⟩ : KeyPathRecord).column) =
        findKeyLoc "port" ["server:", "  port: 80"]
    ∧ ((extractKeyPaths (.map [("server", .map [("port", .num 80)])]) "" []
        ["server:", "  port: 80"]).map (·.path) =
      (extractKeyPaths (.map [("server", .map [("port", .num 80)])]) "" []
        []).map (·.path)) :=
  ⟨((c4_amended (.map [("server", .map [("port", .num 80)])]) ""
      ["server:", "  port: 80"] (by decide)).1
    ⟨"server.port", 2, 1, .num 80, "port"⟩ (List.Mem.tail _ (List.Mem.head _))).1,
   (c4_amended (.map [("server", .map [("port", .num 80)])]) ""
      ["server:", "  port: 80"] (by decide)).2⟩

/-- C9 counterexample: path strings are not pairwise distinct in
general.  For the document `{"a": {"b": 1}, "a.b": 2}` — legal YAML,
since mapping keys may contain dots — the extractor emits the path
list `["a", "a.b", "a.b"]`: the nested key `b` under `a` and the
top-level key `a.b` collide. -/
theorem c9_counterexample :
    ((extractKeyPaths (.map [("a", .map [("b", .num 1)]), ("a.b", .num 2)])
      "" [] []).map (·.path)) = ["a", "a.b", "a.b"]
    ∧ ¬ ((extractKeyPaths (.map [("a", .map [("b", .num 1)]), ("a.b", .num 2)])
      "" [] []).map (·.path)).Nodup :=
  ⟨rfl, by decide⟩

/-- C9 amended: for every parsed document in which each node's child
keys are pairwise distinct, nonempty and dot-free (`wfV` — JS object
keys are always pairwise distinct and sequence indices always satisfy
all three conditions, so this only excludes YAML mapping keys that are
empty or contain a literal dot), the emitted path strings are pairwise
distinct: each path `prefix + "." + key` identifies one node position
of the document's key tree and sibling keys never collide. -/
theorem c9_amended (obj : YVal) (lines : List String) (hw : wfV obj = true) :
    ((extractKeyPaths obj "" [] lines).map (·.path)).Nodup := by
  rw [extractKeyPaths_paths]
  have hgood : ∀ pos ∈ positionsV obj, goodSegs pos := positionsV_good obj hw
  have hmapeq : (positionsV obj).map (joinUnder "") =
      (positionsV obj).map joinDots :=
    List.map_congr_left fun pos hpos =>
      joinUnder_nil pos fun s hs => (hgood pos hpos s hs).1
  rw [hmapeq]
  exact (positionsV_nodup obj hw).map_on fun p hp q hq hpq =>
    joinDots_inj p q (positionsV_ne_nil obj p hp) (positionsV_ne_nil obj q hq)
      (hgood p hp) (hgood q hq) hpq

/-- C9 amended, witnessed at a concrete document: `{server: {port:
80, host: x}, debug: y}` is well-formed and its extracted paths are
pairwise distinct. -/
theorem c9_witness :
    wfV (.map [("server", .map [("port", .num 80), ("host", .str "x")]),
      ("debug", .str "y")]) = true
    ∧ ((extractKeyPaths (.map [("server", .map [("port", .num 80),
        ("host", .str "x")]), ("debug", .str "y")]) "" [] []).map
        (·.path)).Nodup :=
  ⟨by decide,
   c9_amended (.map [("server", .map [("port", .num 80), ("host", .str "x")]),
     ("debug", .str "y")]) [] (by decide)⟩

/-- C2: evaluation of `searchKeyInFile` at the spec's own example
shape.  The file has two documents separated by `---`: document 1 is
the single line `a: 1` and document 2 places `server.port` on
document-local line 3.  The claim requires the reported file-global
line to be `3 + (lines in doc1) + 1 = 5` — which is indeed where
`  port: 80` physically sits (1-based) — but the engine reports 6:
`documents[0].split('\n')` on the raw segment `"a: 1\n"` counts a
trailing empty piece, so the running offset overshoots by one. -/
theorem c2_offset_off_by_one :
    (searchKeyInFile parseSimpleYaml "f"
        "a: 1\n---\nserver:\n  x: 1\n  port: 80" "server.port").map
        (fun m => (m.path, m.line)) = [("server.port", 6)]
    ∧ (splitLines "a: 1\n---\nserver:\n  x: 1\n  port: 80").getD 4 "" =
      "  port: 80"
    ∧ (splitLines "a: 1\n---\nserver:\n  x: 1\n  port: 80").length = 5
    ∧ (6 : Int) ≠ 3 + 1 + 1 :=
  ⟨rfl, rfl, rfl, by decide⟩

/-- C10: a key that exists in a parsed document segment but is
unlocatable in the segment's text reaches the match list with
line = extractor sentinel (-1) + segment offset.  For a segment with
accumulated start offset `L` this is `L - 1`, a positive but
meaningless line number whenever `L > 0`; the `-1` sentinel itself
reaches the caller only when the segment's offset is 0. -/
theorem c10_sentinel_shifted (file q : String) (parsed : YVal)
    (docLines : List String) (offset : Nat) (kp : KeyPathRecord)
    (hkp : kp ∈ extractKeyPaths parsed "" [] docLines)
    (hq : kp.path = q ∨ containsSubstr kp.path q = true)
    (hline : kp.line = -1) :
    ∃ m ∈ docMatches file q parsed docLines offset,
      m.path = kp.path ∧ m.line = (offset : Int) - 1 ∧
        (m.line = -1 ↔ offset = 0) := by
  refine ⟨_, docMatches_of_record file q parsed docLines offset kp hkp hq,
    rfl, ?_, ?_⟩
  · show kp.line + (offset : Int) = (offset : Int) - 1
    rw [hline]; omega
  · show kp.line + (offset : Int) = -1 ↔ offset = 0
    rw [hline]; omega

/-- C10 witnessed: in the file `"a: 1\n---\n'port': 80"` the quoted
key of document 2 parses to `port` but the line scan cannot find it
(`'port': 80` does not start with the bare key), and the segment
offset is 3, so the reported line is the meaningless 2 instead of
-1. -/
theorem c10_witness :
    ∃ m ∈ docMatches "f" "port" (.map [("port", .num 80)]) ["'port': 80"] 3,
      m.path = (⟨"port", -1, -1, .num 80, "port"⟩ : KeyPathRecord).path ∧
        m.line = ((3 : Nat) : Int) - 1 ∧ (m.line = -1 ↔ (3 : Nat) = 0) :=
  c10_sentinel_shifted "f" "port" (.map [("port", .num 80)]) ["'port': 80"] 3
    ⟨"port", -1, -1, .num 80, "port"⟩ (List.Mem.head _) (Or.inl rfl) rfl

/-- C5: the per-match loop of `replaceInFile` never aborts the batch
for a bad match.  A match whose processing fails — line index out of
range, empty key, or a line matching none of the key patterns (all the
cases in which `stepCore` yields `none`) — leaves the loop state
(lines and change count) untouched; such a match can be deleted from
the processing sequence without affecting the result, so the remaining
matches are still processed; and when the batch produces no change the
file is not written.  (The Lean model is a total function: the
embedded loop body cannot raise at all, matching the engine's
per-match `try`/`catch`; only the file-level read/write, which the
model makes explicit in its input/output, can fail.) -/
theorem c5_skip_semantics :
    (∀ (nv : String) (st : List String × Nat) (r : MatchResult),
      stepCore nv st.1 r = none → replaceStep nv st r = st)
    ∧ (∀ (nv : String) (init : List String × Nat)
        (l1 l2 : List MatchResult) (r : MatchResult),
        stepCore nv (l1.foldl (replaceStep nv) init).1 r = none →
        (l1 ++ r :: l2).foldl (replaceStep nv) init =
          (l1 ++ l2).foldl (replaceStep nv) init)
    ∧ (∀ (content : String) (results : List MatchResult) (nv : String),
        (replaceInFile content results nv).1 = 0 →
        (replaceInFile content results nv).2 = none) := by
  refine ⟨replaceStep_skip, ?_, ?_⟩
  · intro nv init l1 l2 r h
    rw [List.foldl_append, List.foldl_append, List.foldl_cons,
      replaceStep_skip nv _ r h]
  · intro content results nv h
    unfold replaceInFile at h ⊢
    dsimp only at h ⊢
    rw [h]
    rfl

/-- C5 witnessed: a match aiming at line 7 of a one-line file is
skipped without effect, deleting it from the batch changes nothing,
and the batch of only that match writes nothing. -/
theorem c5_witness :
    replaceStep "x" (["a: 1"], 0) ⟨"f", "zz", 7, 1, .num 1, "zz", true⟩ =
      (["a: 1"], 0)
    ∧ ([] ++ (⟨"f", "zz", 7, 1, .num 1, "zz", true⟩ : MatchResult) :: []).foldl
        (replaceStep "x") (["a: 1"], 0) =
      (([] ++ [] : List MatchResult)).foldl (replaceStep "x") (["a: 1"], 0)
    ∧ (replaceInFile "a: 1" [⟨"f", "zz", 7, 1, .num 1, "zz", true⟩] "x").2 =
      none :=
  ⟨c5_skip_semantics.1 "x" (["a: 1"], 0) ⟨"f", "zz", 7, 1, .num 1, "zz", true⟩
      rfl,
   c5_skip_semantics.2.1 "x" (["a: 1"], 0) [] []
      ⟨"f", "zz", 7, 1, .num 1, "zz", true⟩ rfl,
   c5_skip_semantics.2.2 "a: 1" [⟨"f", "zz", 7, 1, .num 1, "zz", true⟩] "x"
      rfl⟩

/-- C7: `replaceInFile` sorts each file's batch by line number in
descending order before processing — the processing sequence is a
permutation of the batch that is sorted descending by `line` — and on
a file with matches on lines [2, 9, 5] the processing order is
[9, 5, 2] while all three values are still replaced correctly. -/
theorem c7_descending_batch :
    (∀ rs : List MatchResult,
      List.Perm (sortDescByLine rs) rs ∧
        (sortDescByLine rs).Pairwise fun a b => b.line ≤ a.line)
    ∧ (sortDescByLine [⟨"f", "b", 2, 1, .num 2, "b", true⟩,
        ⟨"f", "i", 9, 1, .num 9, "i", true⟩,
        ⟨"f", "e", 5, 1, .num 5, "e", true⟩]).map (·.line) = [9, 5, 2]
    ∧ replaceInFile "a: 1\nb: 2\nc: 3\nd: 4\ne: 5\nf: 6\ng: 7\nh: 8\ni: 9"
        [⟨"f", "b", 2, 1, .num 2, "b", true⟩,
         ⟨"f", "i", 9, 1, .num 9, "i", true⟩,
         ⟨"f", "e", 5, 1, .num 5, "e", true⟩] "x" =
      (3, some "a: 1\nb: x\nc: 3\nd: 4\ne: x\nf: 6\ng: 7\nh: 8\ni: x") := by
  refine ⟨fun rs => ⟨List.perm_insertionSort _ rs, ?_⟩, rfl, rfl⟩
  haveI : IsTotal MatchResult (fun a b => b.line ≤ a.line) :=
    ⟨fun a b => le_total b.line a.line⟩
  haveI : IsTrans MatchResult (fun a b => b.line ≤ a.line) :=
    ⟨fun _ _ _ h1 h2 => le_trans h2 h1⟩
  exact List.sorted_insertionSort _ rs

/-- C8 counterexample: replacing a key with the exact value it
already holds is not byte-identical up to quoting normalization, on
two independent grounds.  (1) In `a:1` the key `a` holds the bare
numeric token `1`; replacing it with `1` keeps the value unquoted (no
quoting normalization is involved at all: both the original and the
emitted value are the bare token `1`), yet the file changes to `a: 1`
— the rewrite rebuilds the line with a single hard-coded space after
the colon.  (2) In `a: $1.50` the line is already in that canonical
shape and the value is emitted unquoted and unchanged by the
formatting rule, yet `line.replace` performs `$`-substitution over the
whole replacement template: the `$1` inside the value expands to
capture group 1 (`a:`) and the file becomes `a: a:.50`. -/
theorem c8_counterexample :
    fileAfter "a:1" [⟨"f", "a", 1, 1, .num 1, "a", true⟩] "1" = "a: 1"
    ∧ "a: 1" ≠ "a:1"
    ∧ fileAfter "a: $1.50" [⟨"f", "a", 1, 1, .str "$1.50", "a", true⟩]
        "$1.50" = "a: a:.50"
    ∧ "a: a:.50" ≠ "a: $1.50" :=
  ⟨rfl, by decide, rfl, by decide⟩

/-- C8 amended: replacing each matched key's value with the exact
value text it already holds leaves the file byte-identical, provided
each matched line is already in the engine's canonical shape — the
line is its matched prefix-through-colon followed by a single space
and the value, with no trailing whitespace — and splicing the
formatted replacement into the JS replacement template reproduces the
line exactly (as it does for single-quoted, double-quoted, boolean and
numeric scalars free of `$`-substitution sequences).  Hypothesis:
whenever a match resolves (`stepCore` returns a rewritten line,
`$`-substitution included), the rewritten line equals the existing
one.  Lines or values outside that shape are instead rewritten — to
normalized `key: value` spacing, or with `$` sequences of the value
expanded — as the counterexample shows. -/
theorem c8_amended (content : String) (results : List MatchResult)
    (nv : String)
    (h : ∀ r ∈ results, ∀ i nl,
      stepCore nv (splitLines content) r = some (i, nl) →
      nl = (splitLines content).getD i "") :
    fileAfter content results nv = content := by
  unfold fileAfter replaceInFile
  have hfix := foldl_replaceStep_lines_fixed nv (splitLines content)
    (sortDescByLine results)
    (fun r hr => h r ((List.mem_insertionSort _).mp hr)) 0
  dsimp only
  rw [hfix]
  split
  · simp [joinLines_splitLines]
  · simp

/-- C8 amended, witnessed: `host: 'localhost'` rewritten with the
value it holds (`localhost`) is unchanged — the original is
single-quoted, so the replacement is re-quoted to `'localhost'` and
the canonical line is rebuilt identically. -/
theorem c8_witness :
    fileAfter "host: 'localhost'"
      [⟨"f", "host", 1, 1, .str "localhost", "host", true⟩] "localhost" =
      "host: 'localhost'" := by
  apply c8_amended
  intro r hr i nl hc
  have hr' : r = ⟨"f", "host", 1, 1, .str "localhost", "host", true⟩ := by
    simpa using hr
  subst hr'
  have : stepCore "localhost" (splitLines "host: 'localhost'")
      ⟨"f", "host", 1, 1, .str "localhost", "host", true⟩ =
      some (0, "host: 'localhost'") := rfl
  rw [this] at hc
  obtain ⟨rfl, rfl⟩ := Prod.mk.injEq .. ▸ Option.some.inj hc
  rfl

theorem resultLE_exact_imp {a b : MatchResult} (h : resultLE a b = true) :
    b.isExactMatch = true → a.isExactMatch = true := by
  unfold resultLE at h
  cases ha : a.isExactMatch <;> cases hb : b.isExactMatch <;> simp_all

theorem resultLE_file_imp {a b : MatchResult} (h : resultLE a b = true)
    (he : a.isExactMatch = b.isExactMatch) : a.file ≤ b.file := by
  unfold resultLE at h
  cases ha : a.isExactMatch <;> cases hb : b.isExactMatch <;> simp_all

/-- C6: over any multi-file query, the final result list of
`searchYamlKey` is a permutation of the concatenated per-file results
in which every exact match comes before every partial match; within
each of the two groups results are ordered by file path (modelling
`localeCompare` as code-point order); and any two results from the
same file and the same group keep their relative
document/extraction order (the sort is stable, so the subsequence of
each (group, file) class is exactly its subsequence in the unsorted
concatenation). -/
theorem c6_result_ordering (parse : String → Option YVal)
    (files : List (String × String)) (q : String) :
    List.Perm (searchYamlKey parse files q) (allResults parse files q)
    ∧ (searchYamlKey parse files q).Pairwise
        (fun a b => b.isExactMatch = true → a.isExactMatch = true)
    ∧ (searchYamlKey parse files q).Pairwise
        (fun a b => a.isExactMatch = b.isExactMatch → a.file ≤ b.file)
    ∧ ∀ (e : Bool) (f : String),
        (searchYamlKey parse files q).filter
          (fun m => m.isExactMatch == e && m.file == f) =
        (allResults parse files q).filter
          (fun m => m.isExactMatch == e && m.file == f) := by
  have hsorted : (searchYamlKey parse files q).Pairwise
      (fun a b => resultLE a b = true) := by
    unfold searchYamlKey sortResults
    haveI : IsTotal MatchResult (fun a b => resultLE a b = true) :=
      ⟨resultLE_total⟩
    haveI : IsTrans MatchResult (fun a b => resultLE a b = true) :=
      ⟨resultLE_trans⟩
    exact List.sorted_insertionSort _ _
  refine ⟨List.perm_insertionSort _ _, ?_, ?_, ?_⟩
  · exact hsorted.imp fun h => resultLE_exact_imp h
  · exact hsorted.imp fun h => resultLE_file_imp h
  · intro e f
    unfold searchYamlKey sortResults
    apply insertionSort_filter_class
    intro x y hx hy
    simp only [Bool.and_eq_true, beq_iff_eq] at hx hy
    unfold resultLE
    rw [hx.1, hy.1, hx.2, hy.2]
    cases e <;> simp
